import Mathlib

/-!
Verification development for the HaikuBot syllable-estimation engine and
haiku-assembly algorithm.

The definitions below are shallow embeddings of the Python source:
  * `src/backend/haiku/syllable_counter.py` (word segmentation, CamelCase
    splitting, acronym lookup, per-word estimator combination, heuristic
    estimator, word-validity gate), and
  * `src/backend/haiku/generator.py` (haiku assembly and statistics).

Character classes model the Python regular expressions over ASCII text.
External collaborators (the Perl subprocess, the `syllables` library,
`pyphen`, the CMU pronouncing dictionary, and the acronym database cache)
are modelled as an `Oracles` record of abstract functions: the code under
verification only observes their returned counts (`0` meaning
failure/unknown, as in the source).
-/

namespace HaikuBot

/-! ### Character classes (ASCII models of the Python regex classes) -/

/-- Whitespace recognized by Python `str.strip` and the regex class `\s`
(ASCII fragment). -/
def isPySpace (c : Char) : Bool :=
  c = ' ' || c = '\t' || c = '\n' || c = '\r' || c = '\x0b' || c = '\x0c'

/-- The regex class `\w` (ASCII fragment): alphanumerics and underscore. -/
def isWordChar (c : Char) : Bool :=
  c.isAlphanum || c = '_'

/-- Separator class `[\s\-]` used by `re.split` in `count_syllables` and
`validate_line_for_auto_collection`. -/
def isSep (c : Char) : Bool :=
  isPySpace c || c = '-'

/-- Python `str.lower` (ASCII model): lowercase every character. -/
def pyLower (s : String) : String :=
  String.mk (s.data.map Char.toLower)

/-- Python `str.strip`: drop leading and trailing whitespace. -/
def stripChars (l : List Char) : List Char :=
  ((l.dropWhile isPySpace).reverse.dropWhile isPySpace).reverse

/-- The cleaning step `re.sub(r'[^\w\s\-]', '', text)`: keep word
characters, whitespace and hyphens, drop everything else. -/
def cleanChars (l : List Char) : List Char :=
  l.filter (fun c => isWordChar c || isPySpace c || c = '-')

/-- The splitting step `re.split(r'[\s\-]+', cleaned)`: split on maximal
runs of whitespace/hyphens.  Like Python, a leading or trailing separator
run produces an empty token, and the empty string yields `[[]]`. -/
def splitSeps : List Char → List (List Char)
  | [] => [[]]
  | c :: cs =>
    if isSep c then
      match cs with
      | [] => [] :: splitSeps cs
      | c2 :: _ => if isSep c2 then splitSeps cs else [] :: splitSeps cs
    else
      match splitSeps cs with
      | t :: ts => (c :: t) :: ts
      | [] => [[c]]

/-! ### Heuristic estimator (`_count_syllables_heuristic`, lines 281–320) -/

/-- The vowel set `"aeiouy"` used by the heuristic estimator. -/
def isVowel (c : Char) : Bool :=
  c = 'a' || c = 'e' || c = 'i' || c = 'o' || c = 'u' || c = 'y'

/-- One step of the vowel-group loop: state is
`(syllable_count, previous_was_vowel)`. -/
def vowelStep (st : Nat × Bool) (c : Char) : Nat × Bool :=
  let isv := isVowel c
  (if isv && !st.2 then st.1 + 1 else st.1, isv)

/-- Translation of `_count_syllables_heuristic`
(src/backend/haiku/syllable_counter.py lines 281–320): count vowel groups,
subtract one for a trailing silent `e` when the count exceeds one, add one
for a `le` ending preceded by a non-vowel, floor at 1.  Python's negative
indexing `word[-3]` is read off the reversed character list. -/
def count_syllables_heuristic (word : String) : Nat :=
  if word = "" then 0
  else
    let w := (pyLower word).data
    let n0 := (w.foldl vowelStep ((0 : Nat), false)).1
    let r := w.reverse
    let n1 := if r.headD ' ' = 'e' && n0 > 1 then n0 - 1 else n0
    let n2 :=
      if r.take 2 = ['e', 'l'] && w.length > 2 && !isVowel (r.getD 2 ' ')
      then n1 + 1 else n1
    max 1 n2

/-- The heuristic-estimator formula as the specification words it
(spec §4.3): the number of transitions from non-vowel to vowel, minus one
for a trailing `e` when the count exceeds one, plus one for a `le` ending
preceded by a consonant, floored at 1.  Written independently of the
source's loop, for comparison with `count_syllables_heuristic`. -/
def heuristic_spec (word : String) : Nat :=
  let w := (pyLower word).data
  let flags := w.map isVowel
  let transitions := ((false :: flags).zip flags).countP (fun p => !p.1 && p.2)
  let afterSilentE :=
    if w.reverse.headD ' ' = 'e' && transitions > 1 then transitions - 1
    else transitions
  let afterLe :=
    match w.reverse with
    | a :: b :: c :: _ =>
      if a = 'e' ∧ b = 'l' ∧ ¬(isVowel c = true) then afterSilentE + 1 else afterSilentE
    | _ => afterSilentE
  max 1 afterLe

/-! ### CamelCase splitting (`_split_camelcase`, lines 68–98)

The source computes `re.findall(r'[A-Z]?[a-z]+|[A-Z]+(?=[A-Z][a-z]|\b)', word)`.
The scanner below reproduces Python's leftmost, alternative-ordered,
greedy-with-backtracking matching for this particular pattern. -/

/-- The lookahead `(?=[A-Z][a-z]|\b)` evaluated at the position following a
run of uppercase letters (so the preceding character is a word character):
either the next two characters are uppercase-then-lowercase, or there is a
word boundary, i.e. end of input or a non-word character. -/
def lookaheadOk : List Char → Bool
  | [] => true
  | [c] => !isWordChar c
  | c1 :: c2 :: _ => (c1.isUpper && c2.isLower) || !isWordChar c1

/-- Greedy backtracking for `[A-Z]+(?=...)`: try the longest prefix of the
uppercase run first (its reversal is passed in), moving its last character
back onto the remainder until the lookahead holds. -/
def alt2Shrink : List Char → List Char → Option (List Char × List Char)
  | [], _ => none
  | c :: revRun, rest =>
    if lookaheadOk rest then some ((c :: revRun).reverse, rest)
    else alt2Shrink revRun (c :: rest)

/-- First alternative `[A-Z]?[a-z]+`: an optional uppercase letter followed
by a nonempty maximal lowercase run. -/
def matchAlt1 : List Char → Option (List Char × List Char)
  | [] => none
  | c :: cs =>
    let run := cs.takeWhile Char.isLower
    let rest := cs.dropWhile Char.isLower
    if c.isLower then some (c :: run, rest)
    else if c.isUpper && !run.isEmpty then some (c :: run, rest)
    else none

/-- Attempt to match the full pattern at the current position: the first
alternative wins if it matches, otherwise `[A-Z]+(?=[A-Z][a-z]|\b)` is
tried on the uppercase run starting here. -/
def matchAt (l : List Char) : Option (List Char × List Char) :=
  match matchAlt1 l with
  | some r => some r
  | none =>
    match l with
    | [] => none
    | c :: cs =>
      if c.isUpper then
        alt2Shrink ((c :: cs.takeWhile Char.isUpper).reverse) (cs.dropWhile Char.isUpper)
      else none

/-- Fuel-indexed scanner for `re.findall` on this pattern: at each position
try a match; on success emit it and continue after it, otherwise advance
one character.  Every successful match consumes at least one character, so
`fuel = length of the input` (as supplied by `reFindAll`) never runs
out. -/
def reFindAllAux : Nat → List Char → List (List Char)
  | 0, _ => []
  | _ + 1, [] => []
  | fuel + 1, c :: cs =>
    match matchAt (c :: cs) with
    | some (m, rest) => m :: reFindAllAux fuel rest
    | none => reFindAllAux fuel cs

/-- `re.findall(r'[A-Z]?[a-z]+|[A-Z]+(?=[A-Z][a-z]|\b)', word)` over the
character list of `word`. -/
def reFindAll (l : List Char) : List (List Char) :=
  reFindAllAux l.length l

/-- Translation of `_split_camelcase`
(src/backend/haiku/syllable_counter.py lines 68–98): run the regex
`findall`; if nothing matched, keep the word; if the matches rejoin to the
whole word (case-insensitively) and there are at least two of them, return
them as the split, otherwise keep the word whole. -/
def split_camelcase (word : String) : List String :=
  let parts := (reFindAll word.data).map String.mk
  if parts.isEmpty then [word]
  else if pyLower (String.join parts) = pyLower word ∧ 1 < parts.length then parts
  else [word]

/-- Whether the first character of a list is lowercase. -/
def headIsLower : List Char → Bool
  | c :: _ => c.isLower
  | [] => false

/-- An internal case transition in the sense of the specification (§4.1):
an adjacent lowercase-then-uppercase pair, or an uppercase run of length
at least two followed directly by a lowercase letter. -/
def hasTransition : List Char → Bool
  | c1 :: c2 :: rest =>
    (c1.isLower && c2.isUpper)
      || (c1.isUpper && c2.isUpper && headIsLower rest)
      || hasTransition (c2 :: rest)
  | _ => false

/-- Two adjacent sub-tokens meet at a transition boundary: the last
character of the first and the first (up to two) characters of the second
form a case transition. -/
def okBoundary (p1 p2 : List Char) : Bool :=
  match p1.getLast? with
  | some a => hasTransition (a :: p2.take 2)
  | none => false

/-- Every adjacent pair of sub-tokens meets at a transition boundary. -/
def chainOk : List (List Char) → Bool
  | p1 :: p2 :: rest => okBoundary p1 p2 && chainOk (p2 :: rest)
  | _ => true

/-- What it means for `ps` to be the correct decomposition of the token
`l` at its case-transition boundaries: the sub-tokens are non-empty,
concatenate back to `l`, none has an internal transition, adjacent
sub-tokens meet at a transition boundary, and there are two or more of
them exactly when `l` has an internal transition. -/
def scanInv (l : List Char) (ps : List (List Char)) : Prop :=
  ps.flatten = l ∧ ps ≠ [] ∧ (∀ p ∈ ps, p ≠ [] ∧ hasTransition p = false) ∧
    chainOk ps = true ∧ (1 < ps.length ↔ hasTransition l = true)

/-! ### External collaborators -/

/-- Abstract behaviours of the external estimators and stores consumed by
`syllable_counter.py`.  Each field records exactly what the Python code
observes:

* `perl`: the result of `_count_syllables_perl` (the
  `perl_syllable_counter.pl` subprocess wrapping Lingua::EN::Syllable) on
  a whole text; `0` encodes failure/timeout, as in the source.
* `syllables`: the result of `_count_syllables_library`
  (the Python `syllables` package, exceptions mapped to `0`).
* `pyphen`: the result of `_count_syllables_pyphen`
  (hyphenation points + 1, failure mapped to `0`).
* `acro`: the acronym cache `_acronym_cache` loaded from the database,
  keyed by lowercase acronym; `0` encodes a miss.
* `cmu`: whether `pronouncing.phones_for_word` returns a nonempty list
  (CMU pronouncing-dictionary membership). -/
structure Oracles where
  perl : String → Nat
  syllables : String → Nat
  pyphen : String → Nat
  acro : String → Nat
  cmu : String → Bool

/-- Translation of `_check_acronym` (lines 55–65): case-insensitive lookup
in the acronym cache, `0` on a miss. -/
def check_acronym (acro : String → Nat) (word : String) : Nat :=
  acro (pyLower word)

/-! ### Per-word estimator combination (`count_syllables`, lines 135–218) -/

/-- The per-part combination in the inner loop of `count_syllables`
(lines 190–216): acronym lookup on the lowercased part first; otherwise
prefer the `syllables` library when it returns a positive count, fall back
to `pyphen`, and finally to the heuristic. -/
def partCount (o : Oracles) (part : String) : Nat :=
  let pl := pyLower part
  if check_acronym o.acro pl > 0 then check_acronym o.acro pl
  else if o.syllables pl > 0 then o.syllables pl
  else if o.pyphen pl > 0 then o.pyphen pl
  else count_syllables_heuristic pl

/-- The per-word step of `count_syllables` (lines 175–216): a whole-word
acronym hit short-circuits; otherwise the word is CamelCase-split and the
parts' counts are summed. -/
def wordCount (o : Oracles) (word : String) : Nat :=
  if check_acronym o.acro word > 0 then check_acronym o.acro word
  else (split_camelcase word).foldl (fun total part => total + partCount o part) 0

/-- Translation of `count_syllables`
(src/backend/haiku/syllable_counter.py lines 135–218): empty or
whitespace-only text yields 0; with `method = "perl"` a positive Perl
subprocess result is returned for the whole text as-is; otherwise the text
is stripped, cleaned, split into words, and the per-word counts are summed
(empty tokens skipped, mirroring the `continue`). -/
def count_syllables (o : Oracles) (method : String) (text : String) : Nat :=
  if stripChars text.data = [] then 0
  else if method = "perl" && o.perl text > 0 then o.perl text
  else
    let stripped := stripChars text.data
    let cleaned := cleanChars stripped
    let words := (splitSeps cleaned).map String.mk
    words.foldl (fun total w => if w = "" then total else total + wordCount o w) 0

/-- The Consensus Voter as the specification words it (spec §4.4), for
comparison with the source's combination policy: collect the non-unknown
estimator results (given in the fixed priority order) into a multiset;
if empty return the heuristic result; if all agree return that value;
if a strict majority value exists return it; otherwise return the
top-priority available result. -/
def consensusVote (results : List (Option Nat)) (heuristicResult : Nat) : Nat :=
  let known := results.filterMap id
  match known with
  | [] => heuristicResult
  | v :: rest =>
    if rest.all (· == v) then v
    else
      match known.find? (fun u => known.length < 2 * known.count u) with
      | some u => u
      | none => v

/-- Fixed-priority fallback: the first estimator result (in the given
order) that is positive, else the heuristic result.  This is the policy
the source actually implements per part. -/
def priorityFallback (results : List Nat) (heuristicResult : Nat) : Nat :=
  match results.find? (fun v => 0 < v) with
  | some v => v
  | none => heuristicResult

/-! ### Word validity gate (lines 323–410) -/

/-- Translation of `is_valid_english_word`
(src/backend/haiku/syllable_counter.py lines 323–363): empty words are
invalid; pure digit strings are valid; then an approved-acronym hit, then
a CMU pronouncing-dictionary hit; everything else is invalid. -/
def is_valid_english_word (o : Oracles) (word : String) : Bool :=
  if word = "" then false
  else if word.data.all Char.isDigit then true
  else if check_acronym o.acro (pyLower word) > 0 then true
  else if o.cmu (pyLower word) then true
  else false

/-- Translation of `validate_line_for_auto_collection`
(src/backend/haiku/syllable_counter.py lines 366–410): blank text is
rejected with "Empty text"; otherwise the text is cleaned and split, words
of length at most 2 are exempt, the remaining words must pass
`is_valid_english_word`, and the failing words are joined into the
reason. -/
def validate_line_for_auto_collection (o : Oracles) (text : String) :
    Bool × Option String :=
  if stripChars text.data = [] then (false, some "Empty text")
  else
    let cleaned := cleanChars text.data
    let words := (splitSeps cleaned).map String.mk
    let invalid_words := words.foldl
      (fun acc w =>
        if w = "" then acc
        else if w.length ≤ 2 then acc
        else if is_valid_english_word o w then acc
        else acc ++ [w]) []
    if invalid_words = [] then (true, none)
    else (false, some ("Invalid words: " ++ String.intercalate ", " invalid_words))

/-! ### Haiku assembly (`generator.py`) -/

/-- The `Line` record (src/backend/database/models.py), restricted to the
columns the generator reads.  `placement` is `none` for SQL NULL. -/
structure Line where
  id : Nat
  text : String
  syllable_count : Nat
  server : String
  channel : String
  username : String
  source : String
  placement : Option String
  approved : Bool
  flagged_for_deletion : Bool
deriving DecidableEq

/-- The `GeneratedHaiku` record (src/backend/database/models.py),
restricted to the columns `generate_haiku` writes. -/
structure GeneratedHaiku where
  line1_id : Nat
  line2_id : Nat
  line3_id : Nat
  full_text : String
  triggered_by : String
  server : String
  channel : String
deriving DecidableEq

/-- The optional filters of `generate_haiku`. -/
structure Filters where
  username_filter : Option String
  channel_filter : Option String
  server_filter : Option String
  source_filter : Option String

/-- An optional filter matches when absent; Python truthiness makes an
empty-string filter a no-op as well (`if username_filter:`). -/
def optMatch : Option String → String → Bool
  | none, _ => true
  | some x, v => if x = "" then true else v == x

/-- Pool-A predicate (generator.py lines 45, 50, 54–72): 5 syllables,
approved, not flagged, placement NULL/any/first, optional filters. -/
def pred_5_first (f : Filters) (l : Line) : Bool :=
  l.syllable_count == 5 && l.approved && !l.flagged_for_deletion
    && (l.placement == none || l.placement == some "any" || l.placement == some "first")
    && optMatch f.username_filter l.username
    && optMatch f.channel_filter l.channel
    && optMatch f.server_filter l.server
    && optMatch f.source_filter l.source

/-- Pool-B predicate (generator.py line 46): 7 syllables, approved, not
flagged, optional filters (placement irrelevant). -/
def pred_7 (f : Filters) (l : Line) : Bool :=
  l.syllable_count == 7 && l.approved && !l.flagged_for_deletion
    && optMatch f.username_filter l.username
    && optMatch f.channel_filter l.channel
    && optMatch f.server_filter l.server
    && optMatch f.source_filter l.source

/-- Pool-C predicate (generator.py lines 47, 51): 5 syllables, approved,
not flagged, placement NULL/any/last, optional filters. -/
def pred_5_last (f : Filters) (l : Line) : Bool :=
  l.syllable_count == 5 && l.approved && !l.flagged_for_deletion
    && (l.placement == none || l.placement == some "any" || l.placement == some "last")
    && optMatch f.username_filter l.username
    && optMatch f.channel_filter l.channel
    && optMatch f.server_filter l.server
    && optMatch f.source_filter l.source

/-- Placeholder line (never observed: `choice` is only applied to
nonempty pools). -/
def defaultLine : Line :=
  { id := 0, text := "", syllable_count := 0, server := "", channel := ""
    username := "", source := "", placement := none, approved := false
    flagged_for_deletion := false }

/-- `random.choice` modelled nondeterministically: the random draw `k` is
an input, reduced modulo the pool size. -/
def choice (l : List Line) (k : Nat) : Line :=
  l.getD (k % l.length) defaultLine

/-- Translation of `generate_haiku`
(src/backend/haiku/generator.py lines 14–136).  The database session is a
list of lines plus a store of generated haikus; commit is modelled by
appending to the store.  The random draws `k1 k2 k3` are inputs.  If any
candidate pool is empty the result is `none` and the store is unchanged.
The two fallback branches of lines 101–108 both reinstate the unfiltered
pool, so they are modelled as a single `if`. -/
def generate_haiku (db : List Line) (store : List GeneratedHaiku)
    (triggered_by server channel : String) (f : Filters)
    (k1 k2 k3 : Nat) : Option GeneratedHaiku × List GeneratedHaiku :=
  let line1_candidates := db.filter (pred_5_first f)
  let line2_candidates := db.filter (pred_7 f)
  let line3_candidates := db.filter (pred_5_last f)
  if line1_candidates = [] then (none, store)
  else if line2_candidates = [] then (none, store)
  else if line3_candidates = [] then (none, store)
  else
    let line1 := choice line1_candidates k1
    let line2 := choice line2_candidates k2
    let line3_filtered := line3_candidates.filter (fun l => !(l.id == line1.id))
    let line3_pool := if line3_filtered = [] then line3_candidates else line3_filtered
    let line3 := choice line3_pool k3
    let full_text := line1.text ++ " / " ++ line2.text ++ " / " ++ line3.text
    let haiku : GeneratedHaiku :=
      { line1_id := line1.id, line2_id := line2.id, line3_id := line3.id
        full_text := full_text, triggered_by := triggered_by
        server := server, channel := channel }
    (some haiku, store ++ [haiku])

/-- The statistics record returned by `get_haiku_stats`. -/
structure HaikuStats where
  lines_5_syllable : Nat
  lines_5_any : Nat
  lines_5_first_only : Nat
  lines_5_last_only : Nat
  lines_7_syllable : Nat
  lines_position_1 : Nat
  lines_position_2 : Nat
  lines_position_3 : Nat
  possible_permutations : Nat
  generated_haikus : Nat
deriving DecidableEq

/-- Translation of `get_haiku_stats`
(src/backend/haiku/generator.py lines 200–251): counts of 5-syllable
lines by placement, 7-syllable lines, per-position candidate counts, and
the naive permutation product. -/
def get_haiku_stats (db : List Line) (haikus : List GeneratedHaiku) : HaikuStats :=
  let lines_5_any := (db.filter (fun l =>
    l.syllable_count == 5 && (l.placement == none || l.placement == some "any"))).length
  let lines_5_first := (db.filter (fun l =>
    l.syllable_count == 5 && l.placement == some "first")).length
  let lines_5_last := (db.filter (fun l =>
    l.syllable_count == 5 && l.placement == some "last")).length
  let lines_7 := (db.filter (fun l => l.syllable_count == 7)).length
  let lines_pos1 := lines_5_any + lines_5_first
  let lines_pos2 := lines_7
  let lines_pos3 := lines_5_any + lines_5_last
  { lines_5_syllable := lines_5_any + lines_5_first + lines_5_last
    lines_5_any := lines_5_any
    lines_5_first_only := lines_5_first
    lines_5_last_only := lines_5_last
    lines_7_syllable := lines_7
    lines_position_1 := lines_pos1
    lines_position_2 := lines_pos2
    lines_position_3 := lines_pos3
    possible_permutations := lines_pos1 * lines_pos2 * lines_pos3
    generated_haikus := haikus.length }

/-! ### Concrete instances used to evaluate the theorems -/

/-- Oracles on which every estimator fails and every lookup misses. -/
def oZero : Oracles :=
  { perl := fun _ => 0, syllables := fun _ => 0, pyphen := fun _ => 0
    acro := fun _ => 0, cmu := fun _ => false }

/-- Oracles exercising the estimator-combination policy: the `syllables`
library reports 3 and `pyphen` reports 2 for every word, there are no
acronyms, and the Perl counter always fails. -/
def oC1 : Oracles :=
  { perl := fun _ => 0, syllables := fun _ => 3, pyphen := fun _ => 2
    acro := fun _ => 0, cmu := fun _ => false }

/-- Oracles exercising the acronym short-circuit: the acronym store maps
"gui" to 3 syllables, and the Perl counter reports 1 syllable for every
text (as Lingua::EN::Syllable does for the single vowel group of
"gui"). -/
def oC2 : Oracles :=
  { perl := fun _ => 1, syllables := fun _ => 0, pyphen := fun _ => 0
    acro := fun w => if w = "gui" then 3 else 0, cmu := fun _ => false }

/-- Oracles with the "gui" acronym but a failing Perl counter. -/
def oZeroAcro : Oracles :=
  { perl := fun _ => 0, syllables := fun _ => 0, pyphen := fun _ => 0
    acro := fun w => if w = "gui" then 3 else 0, cmu := fun _ => false }

/-- Oracles exercising the validity gate: "btw" is an approved acronym,
"hello" and "world" are in the phonetic dictionary. -/
def oC7 : Oracles :=
  { perl := fun _ => 0, syllables := fun _ => 0, pyphen := fun _ => 0
    acro := fun w => if w = "btw" then 3 else 0
    cmu := fun w => w == "hello" || w == "world" }

/-- Example 5-syllable line placeable anywhere. -/
def exLine1 : Line :=
  { id := 1, text := "an old silent pond", syllable_count := 5
    server := "irc.example.org", channel := "#haiku", username := "basho"
    source := "auto", placement := some "any", approved := true
    flagged_for_deletion := false }

/-- Example 7-syllable line. -/
def exLine2 : Line :=
  { id := 2, text := "a frog jumps into the pond", syllable_count := 7
    server := "irc.example.org", channel := "#haiku", username := "basho"
    source := "auto", placement := none, approved := true
    flagged_for_deletion := false }

/-- Example 5-syllable line restricted to the last position. -/
def exLine3 : Line :=
  { id := 3, text := "splash then silence again", syllable_count := 5
    server := "irc.example.org", channel := "#haiku", username := "basho"
    source := "auto", placement := some "last", approved := true
    flagged_for_deletion := false }

/-- Example line pool. -/
def exDb : List Line := [exLine1, exLine2, exLine3]

/-- No optional filters. -/
def noFilters : Filters :=
  { username_filter := none, channel_filter := none
    server_filter := none, source_filter := none }

/-- The haiku assembled from `exDb` with all random draws at index 0. -/
def exHaiku : GeneratedHaiku :=
  { line1_id := 1, line2_id := 2, line3_id := 3
    full_text := exLine1.text ++ " / " ++ exLine2.text ++ " / " ++ exLine3.text
    triggered_by := "issa", server := "irc.example.org", channel := "#haiku" }

/-! ## Character-class facts -/

theorem isUpper_not_isLower {c : Char} (h : c.isUpper = true) : c.isLower = false := by
  simp [Char.isUpper, Char.isLower, UInt32.le_def, BitVec.le_def] at *
  omega

theorem isLower_not_isUpper {c : Char} (h : c.isLower = true) : c.isUpper = false := by
  simp [Char.isUpper, Char.isLower, UInt32.le_def, BitVec.le_def] at *
  omega

theorem isAlpha_lower_or_upper {c : Char} (h : c.isAlpha = true) :
    c.isLower = true ∨ c.isUpper = true := by
  rw [Char.isAlpha] at h
  rcases Bool.or_eq_true_iff.mp h with h | h
  · exact Or.inr h
  · exact Or.inl h

theorem toLower_of_isLower {c : Char} (h : c.isLower = true) : c.toLower = c := by
  simp [Char.isLower, UInt32.le_def, BitVec.le_def] at h
  simp [Char.toLower, Char.toNat, UInt32.toNat]
  intro h1 h2
  omega

theorem isAlpha_isWordChar {c : Char} (h : c.isAlpha = true) : isWordChar c = true := by
  simp [isWordChar, Char.isAlphanum, h]

theorem isWordChar_not_pySpace {c : Char} (h : isWordChar c = true) :
    isPySpace c = false := by
  cases hs : isPySpace c
  · rfl
  · simp only [isPySpace] at hs
    rcases Bool.or_eq_true_iff.mp hs with hs | h6
    rcases Bool.or_eq_true_iff.mp hs with hs | h5
    rcases Bool.or_eq_true_iff.mp hs with hs | h4
    rcases Bool.or_eq_true_iff.mp hs with hs | h3
    rcases Bool.or_eq_true_iff.mp hs with h1 | h2
    all_goals simp_all [isWordChar]

theorem isWordChar_not_sep {c : Char} (h : isWordChar c = true) : isSep c = false := by
  rw [isSep, isWordChar_not_pySpace h]
  simp only [Bool.false_or]
  cases hd : decide (c = '-')
  · rfl
  · have : c = '-' := of_decide_eq_true hd
    subst this
    exact absurd h (by decide)

/-! ## String and pipeline facts -/

theorem string_mk_data (s : String) : String.mk s.data = s := rfl

theorem string_ne_empty_of_data {w : String} (h : w.data ≠ []) : w ≠ "" := by
  intro he
  subst he
  exact h rfl

theorem dropWhile_eq_self_of {p : Char → Bool} {l : List Char}
    (h : ∀ c ∈ l, p c = false) : l.dropWhile p = l := by
  cases l with
  | nil => rfl
  | cons a as =>
    rw [List.dropWhile_cons, h a (List.mem_cons_self a as)]
    simp

theorem stripChars_eq_self {l : List Char} (h : ∀ c ∈ l, isWordChar c = true) :
    stripChars l = l := by
  rw [stripChars, dropWhile_eq_self_of (fun c hc => isWordChar_not_pySpace (h c hc))]
  rw [dropWhile_eq_self_of (fun c hc =>
    isWordChar_not_pySpace (h c (List.mem_reverse.mp hc)))]
  exact List.reverse_reverse l

theorem cleanChars_eq_self {l : List Char} (h : ∀ c ∈ l, isWordChar c = true) :
    cleanChars l = l :=
  List.filter_eq_self.mpr (fun a ha => by simp [h a ha])

theorem splitSeps_no_sep {l : List Char} (hne : l ≠ [])
    (h : ∀ c ∈ l, isSep c = false) : splitSeps l = [l] := by
  induction l with
  | nil => exact absurd rfl hne
  | cons c cs ih =>
    rw [splitSeps.eq_def]
    simp only [h c (List.mem_cons_self c cs), Bool.false_eq_true, if_false]
    cases cs with
    | nil => rfl
    | cons c2 cs2 =>
      rw [ih (by simp) (fun x hx => h x (List.mem_cons_of_mem c hx))]

/-- A text made of a single word-character token passes unchanged through
strip, clean, and split. -/
theorem pipeline_single_word (w : String) (hne : w.data ≠ [])
    (hw : ∀ c ∈ w.data, isWordChar c = true) :
    (splitSeps (cleanChars (stripChars w.data))).map String.mk = [w] := by
  rw [stripChars_eq_self hw, cleanChars_eq_self hw,
    splitSeps_no_sep hne (fun c hc => isWordChar_not_sep (hw c hc))]
  rw [List.map_cons, List.map_nil, string_mk_data]

/-- For a single word-character token, `count_syllables` (outside a
successful Perl run) reduces to the per-word count. -/
theorem count_syllables_single_word (o : Oracles) (method : String) (w : String)
    (hne : w.data ≠ []) (hw : ∀ c ∈ w.data, isWordChar c = true)
    (hp : method = "python" ∨ o.perl w = 0) :
    count_syllables o method w = wordCount o w := by
  have hstrip : stripChars w.data = w.data := stripChars_eq_self hw
  have hcond : (method = "perl" && o.perl w > 0) = false := by
    rcases hp with hp | hp
    · subst hp
      simp
    · rw [hp]
      simp
  rw [count_syllables, if_neg (by rw [hstrip]; exact hne), if_neg (by rw [hcond]; simp)]
  simp only [hstrip]
  rw [cleanChars_eq_self hw,
    splitSeps_no_sep hne (fun c hc => isWordChar_not_sep (hw c hc))]
  rw [List.map_cons, List.map_nil, string_mk_data]
  rw [List.foldl_cons, List.foldl_nil, if_neg (string_ne_empty_of_data hne)]
  exact Nat.zero_add _

/-- Claim C3: `count_syllables` is total over arbitrary strings (the
embedding is a total function into `Nat`, so it is defined and
non-negative on every input), and empty or whitespace-only input yields
0. -/
theorem count_syllables_blank (o : Oracles) (method text : String)
    (h : stripChars text.data = []) : count_syllables o method text = 0 := by
  rw [count_syllables, if_pos h]

/-- Witness for C3 at the empty string and a whitespace-only string. -/
theorem count_syllables_blank_witness :
    count_syllables oZero "perl" "" = 0 ∧ count_syllables oZero "perl" "   " = 0 :=
  ⟨count_syllables_blank oZero "perl" "" (by decide),
   count_syllables_blank oZero "perl" "   " (by decide)⟩

/-! ## Lowercasing facts -/

theorem toNat_ofNat_valid (n : Nat) (h : n.isValidChar) : (Char.ofNat n).toNat = n := by
  simp [Char.ofNat, h, Char.toNat, Char.ofNatAux]
  rfl

theorem toLower_toLower (c : Char) : Char.toLower (Char.toLower c) = Char.toLower c := by
  simp only [Char.toLower]
  split
  · next h =>
    have hv : (c.toNat + 32).isValidChar := by
      rcases h with ⟨h1, h2⟩
      left
      omega
    rw [toNat_ofNat_valid _ hv]
    rcases h with ⟨h1, h2⟩
    rw [if_neg (by omega)]
  · rfl

theorem map_id_of_mem {f : Char → Char} {l : List Char} (h : ∀ c ∈ l, f c = c) :
    l.map f = l := by
  induction l with
  | nil => rfl
  | cons a as ih =>
    rw [List.map_cons, h a (List.mem_cons_self a as),
      ih (fun c hc => h c (List.mem_cons_of_mem a hc))]

theorem pyLower_pyLower (s : String) : pyLower (pyLower s) = pyLower s := by
  rw [pyLower, pyLower]
  rw [List.map_map]
  congr 1
  rw [List.map_eq_map_iff]
  intro c _
  exact toLower_toLower c

theorem pyLower_of_all_lower {w : String} (h : ∀ c ∈ w.data, c.isLower = true) :
    pyLower w = w := by
  rw [pyLower, map_id_of_mem (fun c hc => toLower_of_isLower (h c hc))]

/-! ## Claim C2: the acronym short-circuit -/

/-- Counterexample to C2 as stated: under the default `method = "perl"`
path with a working Perl counter, a word exactly matching an acronym key
("GUI", with fixed count 3) is not assigned the acronym count at all — the
whole-text Perl result (1) is returned and the acronym store is never
consulted. -/
theorem acronym_short_circuit_counterexample :
    0 < oC2.acro (pyLower "GUI") ∧ oC2.acro (pyLower "GUI") = 3 ∧
      count_syllables oC2 "perl" "GUI" = 1 := by
  decide

/-- Claim C2 (amended): whenever the Perl whole-text counter is not in
play — the method is "python", or the Perl counter fails (returns 0) — a
word exactly matching an acronym key (matched case-insensitively) is
assigned the acronym's fixed syllable count, short-circuiting estimator
invocation for that word entirely, regardless of what the estimators
would produce (the `syllables`, `pyphen` and heuristic results are
universally quantified here and never consulted). -/
theorem acronym_short_circuit (o : Oracles) (method : String) (w : String)
    (hne : w.data ≠ []) (hw : ∀ c ∈ w.data, isWordChar c = true)
    (ha : 0 < o.acro (pyLower w))
    (hp : method = "python" ∨ o.perl w = 0) :
    count_syllables o method w = o.acro (pyLower w) := by
  rw [count_syllables_single_word o method w hne hw hp, wordCount]
  rw [check_acronym, if_pos ha]

/-- Witness for C2 (amended) at "GUI" with the `oC2` oracles and a failing
Perl path. -/
theorem acronym_short_circuit_witness :
    count_syllables oZeroAcro "perl" "GUI" = 3 :=
  acronym_short_circuit oZeroAcro "perl" "GUI" (by decide) (by decide) (by decide)
    (Or.inr rfl)

/-! ## Scanner evaluation on all-lowercase words -/

theorem reFindAllAux_nil (fuel : Nat) : reFindAllAux fuel [] = [] := by
  cases fuel <;> rfl

theorem matchAt_lower {c : Char} (cs : List Char) (h : c.isLower = true) :
    matchAt (c :: cs) = some (c :: cs.takeWhile Char.isLower, cs.dropWhile Char.isLower) := by
  unfold matchAt matchAlt1
  simp [h]

theorem reFindAll_all_lower {l : List Char} (hne : l ≠ [])
    (h : ∀ c ∈ l, c.isLower = true) : reFindAll l = [l] := by
  match l, hne with
  | c :: cs, _ =>
    have h1 := matchAt_lower cs (h c (List.mem_cons_self c cs))
    have h2 : cs.takeWhile Char.isLower = cs :=
      List.takeWhile_eq_self_iff.mpr (fun x hx => h x (List.mem_cons_of_mem c hx))
    have h3 : cs.dropWhile Char.isLower = [] :=
      List.dropWhile_eq_nil_iff.mpr (fun x hx => h x (List.mem_cons_of_mem c hx))
    rw [reFindAll, List.length_cons, reFindAllAux, h1, h2, h3]
    simp [reFindAllAux_nil]

theorem split_camelcase_all_lower {w : String} (hne : w.data ≠ [])
    (h : ∀ c ∈ w.data, c.isLower = true) : split_camelcase w = [w] := by
  rw [split_camelcase, reFindAll_all_lower hne h]
  simp [string_mk_data]

/-! ## Claim C1: per-word estimator combination -/

/-- Counterexample to C1 as stated: for the word "hello" with estimator
results `syllables = 3`, `pyphen = 2`, heuristic `= 2` (multiset 3,2,2,
whose strict majority value is 2), the consensus-voting policy of the
spec yields 2, but `count_syllables` yields 3 — the source prefers the
`syllables` library whenever it returns a positive count and takes no
vote. -/
theorem consensus_vote_counterexample :
    count_syllables oC1 "python" "hello" = 3 ∧
      count_syllables_heuristic "hello" = 2 ∧
      consensusVote [some (oC1.syllables "hello"), some (oC1.pyphen "hello"),
        some (count_syllables_heuristic "hello")] (count_syllables_heuristic "hello") = 2 := by
  decide

theorem partCount_priority (o : Oracles) (part : String)
    (ha : o.acro (pyLower part) = 0) :
    partCount o part =
      priorityFallback [o.syllables (pyLower part), o.pyphen (pyLower part)]
        (count_syllables_heuristic (pyLower part)) := by
  rw [partCount]
  simp only [check_acronym, pyLower_pyLower, ha]
  rw [priorityFallback]
  by_cases hs : 0 < o.syllables (pyLower part)
  · simp [hs, List.find?_cons]
  · by_cases hp : 0 < o.pyphen (pyLower part)
    · simp [hs, hp, List.find?_cons]
    · simp [hs, hp, List.find?_cons, Nat.not_lt.mp hs, Nat.not_lt.mp hp]

/-- Claim C1 (amended): for a word not resolved as an acronym (a single
all-lowercase word here, so that segmentation and CamelCase splitting are
identity), `count_syllables` does not take a consensus vote over the
configured estimators: it returns the result of the first estimator in
the fixed priority order `syllables` library, `pyphen`, heuristic whose
result is positive (the heuristic, always positive, being last). -/
theorem priority_fallback_combination (o : Oracles) (w : String)
    (hne : w.data ≠ []) (hlow : ∀ c ∈ w.data, c.isLower = true)
    (ha : o.acro w = 0) :
    count_syllables o "python" w =
      priorityFallback [o.syllables w, o.pyphen w] (count_syllables_heuristic w) := by
  have hword : ∀ c ∈ w.data, isWordChar c = true := fun c hc =>
    isAlpha_isWordChar (by rw [Char.isAlpha, hlow c hc]; simp)
  have hlw : pyLower w = w := pyLower_of_all_lower hlow
  rw [count_syllables_single_word o "python" w hne hword (Or.inl rfl)]
  rw [wordCount, check_acronym, hlw, ha]
  simp only [gt_iff_lt, Nat.lt_irrefl, if_false]
  rw [split_camelcase_all_lower hne hlow]
  rw [List.foldl_cons, List.foldl_nil, Nat.zero_add]
  rw [partCount_priority o w (by rw [hlw]; exact ha), hlw]

/-- Witness for C1 (amended) at "world" with the `oC1` oracles. -/
theorem priority_fallback_combination_witness :
    count_syllables oC1 "python" "world" =
      priorityFallback [oC1.syllables "world", oC1.pyphen "world"]
        (count_syllables_heuristic "world") :=
  priority_fallback_combination oC1 "world" (by decide) (by decide) rfl

/-! ## Claim C5: the heuristic estimator -/

theorem vowelStep_fold (l : List Char) (n : Nat) (prev : Bool) :
    (l.foldl vowelStep (n, prev)).1 =
      n + ((prev :: l.map isVowel).zip (l.map isVowel)).countP (fun p => !p.1 && p.2) := by
  induction l generalizing n prev with
  | nil => simp
  | cons c cs ih =>
    rw [List.foldl_cons, List.map_cons, List.zip_cons_cons, List.countP_cons]
    simp only [vowelStep]
    rw [ih]
    cases hv : isVowel c <;> cases prev <;> (simp; try omega)

theorem le_suffix_cases (r : List Char) (n1 : Nat) :
    (if r.take 2 = ['e', 'l'] && r.length > 2 && !isVowel (r.getD 2 ' ') then n1 + 1 else n1) =
      (match r with
       | a :: b :: c :: _ => if a = 'e' ∧ b = 'l' ∧ ¬(isVowel c = true) then n1 + 1 else n1
       | _ => n1) := by
  match r with
  | [] => simp
  | [a] => simp
  | [a, b] => simp
  | a :: b :: c :: t =>
    have hget : (a :: b :: c :: t).getD 2 ' ' = c := rfl
    have hlen : 2 < (a :: b :: c :: t).length := by simp
    rw [hget]
    by_cases ha : a = 'e' <;> by_cases hb : b = 'l' <;> cases hv : isVowel c <;>
      simp [ha, hb, hv, List.take, hlen]

/-- Claim C5: for every non-empty word the heuristic estimator returns at
least 1, and its result equals the formula of the specification: the
number of non-vowel-to-vowel transitions (vowels being a e i o u y),
minus one when the word ends in `e` and the count exceeds one, plus one
when the word ends in `le` preceded by a consonant, floored at 1. -/
theorem heuristic_matches_spec (w : String) (h : w ≠ "") :
    1 ≤ count_syllables_heuristic w ∧ count_syllables_heuristic w = heuristic_spec w := by
  constructor
  · rw [count_syllables_heuristic, if_neg h]
    exact le_max_left 1 _
  · simp only [count_syllables_heuristic, heuristic_spec, if_neg h]
    rw [vowelStep_fold, Nat.zero_add]
    congr 1
    rw [show ((pyLower w).data.length) = ((pyLower w).data.reverse.length) from
      (List.length_reverse _).symm]
    exact le_suffix_cases ((pyLower w).data.reverse) _

/-- Witness for C5 at "little". -/
theorem heuristic_matches_spec_witness :
    1 ≤ count_syllables_heuristic "little" ∧
      count_syllables_heuristic "little" = heuristic_spec "little" :=
  heuristic_matches_spec "little" (by decide)

/-! ## Claim C9: statistics aggregation -/

theorem countP_or_disjoint {α : Type} (p q : α → Bool) (l : List α)
    (h : ∀ a, ¬(p a = true ∧ q a = true)) :
    l.countP (fun a => p a || q a) = l.countP p + l.countP q := by
  induction l with
  | nil => simp
  | cons a as ih =>
    simp only [List.countP_cons, ih]
    cases hp : p a <;> cases hq : q a <;> simp <;> try omega
    exact absurd ⟨hp, hq⟩ (h a)

/-- Claim C9: the `possible_permutations` figure of `get_haiku_stats`
equals exactly the product of the three position candidate counts:
5-syllable lines placeable `any`-or-`first` (NULL treated as `any`),
all 7-syllable lines, and 5-syllable lines placeable `any`-or-`last`. -/
theorem get_stats_permutations (db : List Line) (haikus : List GeneratedHaiku) :
    (get_haiku_stats db haikus).possible_permutations =
      db.countP (fun l => l.syllable_count == 5 &&
        (l.placement == none || l.placement == some "any" || l.placement == some "first")) *
      db.countP (fun l => l.syllable_count == 7) *
      db.countP (fun l => l.syllable_count == 5 &&
        (l.placement == none || l.placement == some "any" || l.placement == some "last")) := by
  have hdisj1 : ∀ a : Line, ¬((a.syllable_count == 5 &&
      (a.placement == none || a.placement == some "any")) = true ∧
      (a.syllable_count == 5 && a.placement == some "first") = true) := by
    intro a ⟨hp, hq⟩
    simp only [Bool.and_eq_true, beq_iff_eq, Bool.or_eq_true] at hp hq
    rw [hq.2] at hp
    rcases hp.2 with h | h <;> simp at h
  have hdisj3 : ∀ a : Line, ¬((a.syllable_count == 5 &&
      (a.placement == none || a.placement == some "any")) = true ∧
      (a.syllable_count == 5 && a.placement == some "last") = true) := by
    intro a ⟨hp, hq⟩
    simp only [Bool.and_eq_true, beq_iff_eq, Bool.or_eq_true] at hp hq
    rw [hq.2] at hp
    rcases hp.2 with h | h <;> simp at h
  have hbool : ∀ x b1 b2 b3 : Bool,
      (x && (b1 || b2) || x && b3) = (x && (b1 || b2 || b3)) := by
    decide
  have hfun1 : (fun l : Line => (l.syllable_count == 5 &&
      (l.placement == none || l.placement == some "any")) ||
      (l.syllable_count == 5 && l.placement == some "first")) =
      (fun l : Line => l.syllable_count == 5 &&
        (l.placement == none || l.placement == some "any" || l.placement == some "first")) := by
    funext a
    exact hbool _ _ _ _
  have hfun3 : (fun l : Line => (l.syllable_count == 5 &&
      (l.placement == none || l.placement == some "any")) ||
      (l.syllable_count == 5 && l.placement == some "last")) =
      (fun l : Line => l.syllable_count == 5 &&
        (l.placement == none || l.placement == some "any" || l.placement == some "last")) := by
    funext a
    exact hbool _ _ _ _
  have h1 := countP_or_disjoint _ _ db hdisj1
  have h3 := countP_or_disjoint _ _ db hdisj3
  rw [hfun1] at h1
  rw [hfun3] at h3
  simp only [get_haiku_stats, ← List.countP_eq_length_filter]
  rw [← h1, ← h3]

/-! ## Claims C8, C10, C4: haiku assembly -/

theorem choice_mem {l : List Line} (hl : l ≠ []) (k : Nat) : choice l k ∈ l := by
  have hpos : 0 < l.length := List.length_pos_of_ne_nil hl
  have hlt : k % l.length < l.length := Nat.mod_lt k hpos
  rw [choice, List.getD_eq_getElem?_getD, List.getElem?_eq_getElem hlt]
  exact List.getElem_mem hlt

theorem syll_of_pred_5_first {f : Filters} {l : Line} (h : pred_5_first f l = true) :
    l.syllable_count = 5 := by
  simp only [pred_5_first, Bool.and_eq_true, beq_iff_eq] at h
  exact h.1.1.1.1.1.1.1

theorem syll_of_pred_7 {f : Filters} {l : Line} (h : pred_7 f l = true) :
    l.syllable_count = 7 := by
  simp only [pred_7, Bool.and_eq_true, beq_iff_eq] at h
  exact h.1.1.1.1.1.1

theorem syll_of_pred_5_last {f : Filters} {l : Line} (h : pred_5_last f l = true) :
    l.syllable_count = 5 := by
  simp only [pred_5_last, Bool.and_eq_true, beq_iff_eq] at h
  exact h.1.1.1.1.1.1.1

/-- Claim C8: `generate_haiku` yields the explicit no-haiku result
(`none`), not a failure, whenever any of the three position pools is
empty, and yields a 5-7-5 triple drawn from the three pools whenever all
three are non-empty. -/
theorem generate_haiku_pools (db : List Line) (store : List GeneratedHaiku)
    (tb sv ch : String) (f : Filters) (k1 k2 k3 : Nat) :
    ((db.filter (pred_5_first f) = [] ∨ db.filter (pred_7 f) = [] ∨
        db.filter (pred_5_last f) = []) →
      (generate_haiku db store tb sv ch f k1 k2 k3).1 = none) ∧
    (db.filter (pred_5_first f) ≠ [] → db.filter (pred_7 f) ≠ [] →
      db.filter (pred_5_last f) ≠ [] →
      ∃ l1 l2 l3 : Line,
        l1 ∈ db.filter (pred_5_first f) ∧ l2 ∈ db.filter (pred_7 f) ∧
        l3 ∈ db.filter (pred_5_last f) ∧
        l1.syllable_count = 5 ∧ l2.syllable_count = 7 ∧ l3.syllable_count = 5 ∧
        (generate_haiku db store tb sv ch f k1 k2 k3).1 =
          some { line1_id := l1.id, line2_id := l2.id, line3_id := l3.id
                 full_text := l1.text ++ " / " ++ l2.text ++ " / " ++ l3.text
                 triggered_by := tb, server := sv, channel := ch }) := by
  constructor
  · intro hempty
    by_cases h1 : db.filter (pred_5_first f) = []
    · simp only [generate_haiku, if_pos h1]
    · by_cases h2 : db.filter (pred_7 f) = []
      · simp only [generate_haiku, if_neg h1, if_pos h2]
      · have h3 : db.filter (pred_5_last f) = [] := by
          rcases hempty with h | h | h
          · exact absurd h h1
          · exact absurd h h2
          · exact h
        simp only [generate_haiku, if_neg h1, if_neg h2, if_pos h3]
  · intro h1 h2 h3
    refine ⟨choice (db.filter (pred_5_first f)) k1, choice (db.filter (pred_7 f)) k2,
      ?_, choice_mem h1 k1, choice_mem h2 k2, ?_, ?_, ?_, ?_, ?_⟩
    case _ =>
      exact choice (if (db.filter (pred_5_last f)).filter
          (fun l => !(l.id == (choice (db.filter (pred_5_first f)) k1).id)) = []
        then db.filter (pred_5_last f)
        else (db.filter (pred_5_last f)).filter
          (fun l => !(l.id == (choice (db.filter (pred_5_first f)) k1).id))) k3
    case _ =>
      by_cases he : (db.filter (pred_5_last f)).filter
          (fun l => !(l.id == (choice (db.filter (pred_5_first f)) k1).id)) = []
      · rw [if_pos he]
        exact choice_mem h3 k3
      · rw [if_neg he]
        exact List.mem_of_mem_filter (choice_mem he k3)
    case _ => exact syll_of_pred_5_first (List.of_mem_filter (choice_mem h1 k1))
    case _ => exact syll_of_pred_7 (List.of_mem_filter (choice_mem h2 k2))
    case _ =>
      by_cases he : (db.filter (pred_5_last f)).filter
          (fun l => !(l.id == (choice (db.filter (pred_5_first f)) k1).id)) = []
      · rw [if_pos he]
        exact syll_of_pred_5_last (List.of_mem_filter (choice_mem h3 k3))
      · rw [if_neg he]
        exact syll_of_pred_5_last
          (List.of_mem_filter (List.mem_of_mem_filter (choice_mem he k3)))
    case _ =>
      simp only [generate_haiku, if_neg h1, if_neg h2, if_neg h3]

/-- Claim C10: when any candidate pool is empty, `generate_haiku` returns
`none` and the store of generated haikus is unchanged — nothing is
constructed or committed; when all three pools are non-empty, exactly one
haiku record is appended (committed) to the store. -/
theorem generate_haiku_persistence (db : List Line) (store : List GeneratedHaiku)
    (tb sv ch : String) (f : Filters) (k1 k2 k3 : Nat) :
    ((db.filter (pred_5_first f) = [] ∨ db.filter (pred_7 f) = [] ∨
        db.filter (pred_5_last f) = []) →
      generate_haiku db store tb sv ch f k1 k2 k3 = (none, store)) ∧
    (db.filter (pred_5_first f) ≠ [] → db.filter (pred_7 f) ≠ [] →
      db.filter (pred_5_last f) ≠ [] →
      ∃ hk : GeneratedHaiku,
        generate_haiku db store tb sv ch f k1 k2 k3 = (some hk, store ++ [hk])) := by
  constructor
  · intro hempty
    by_cases h1 : db.filter (pred_5_first f) = []
    · simp only [generate_haiku, if_pos h1]
    · by_cases h2 : db.filter (pred_7 f) = []
      · simp only [generate_haiku, if_neg h1, if_pos h2]
      · have h3 : db.filter (pred_5_last f) = [] := by
          rcases hempty with h | h | h
          · exact absurd h h1
          · exact absurd h h2
          · exact h
        simp only [generate_haiku, if_neg h1, if_neg h2, if_pos h3]
  · intro h1 h2 h3
    simp only [generate_haiku, if_neg h1, if_neg h2, if_neg h3]
    exact ⟨_, rfl⟩

/-- Claim C4: whenever the position-3 pool holds more than one line (and
line identifiers are unique, as database primary keys are), the selected
position-1 and position-3 lines are distinct: the position-1 pick is
removed from the position-3 pool by identity before the draw. -/
theorem generate_haiku_distinct (db : List Line) (store : List GeneratedHaiku)
    (tb sv ch : String) (f : Filters) (k1 k2 k3 : Nat)
    (hid : (db.map Line.id).Nodup)
    (hmul : 1 < (db.filter (pred_5_last f)).length) :
    ∀ hk s, generate_haiku db store tb sv ch f k1 k2 k3 = (some hk, s) →
      hk.line1_id ≠ hk.line3_id := by
  intro hk s heq
  by_cases h1 : db.filter (pred_5_first f) = []
  · simp only [generate_haiku, if_pos h1] at heq
    simp at heq
  · by_cases h2 : db.filter (pred_7 f) = []
    · simp only [generate_haiku, if_neg h1, if_pos h2] at heq
      simp at heq
    · have h3 : db.filter (pred_5_last f) ≠ [] := by
        intro he
        rw [he] at hmul
        simp at hmul
      simp only [generate_haiku, if_neg h1, if_neg h2, if_neg h3] at heq
      have hnodup3 : ((db.filter (pred_5_last f)).map Line.id).Nodup :=
        hid.sublist (List.Sublist.map Line.id (List.filter_sublist db))
      have hfil : (db.filter (pred_5_last f)).filter
          (fun l => !(l.id == (choice (db.filter (pred_5_first f)) k1).id)) ≠ [] := by
        intro he
        have hall : ∀ l ∈ db.filter (pred_5_last f),
            l.id = (choice (db.filter (pred_5_first f)) k1).id := by
          intro l hl
          have := List.filter_eq_nil_iff.mp he l hl
          simpa using this
        rcases hc : db.filter (pred_5_last f) with _ | ⟨a, _ | ⟨b, rest⟩⟩
        · rw [hc] at hmul
          simp at hmul
        · rw [hc] at hmul
          simp at hmul
        · rw [hc] at hnodup3 hall
          have ha := hall a (by simp)
          have hb := hall b (by simp)
          rw [List.map_cons, List.map_cons, List.nodup_cons] at hnodup3
          exact hnodup3.1 (by rw [ha, ← hb]; simp)
      rw [if_neg hfil] at heq
      have hL3 := choice_mem hfil k3
      have hne := List.of_mem_filter hL3
      simp only [Bool.not_eq_true', beq_eq_false_iff_ne, ne_eq] at hne
      have hfst := congrArg Prod.fst heq
      have hk_eq := Option.some.inj hfst
      rw [← hk_eq]
      exact fun hcontra => hne hcontra.symm

/-- Witness for C8: the no-haiku outcome on an empty pool and a full
5-7-5 triple on the example pool. -/
theorem generate_haiku_pools_witness :
    (generate_haiku [] [] "issa" "irc.example.org" "#haiku" noFilters 0 0 0).1 = none ∧
    (∃ l1 l2 l3 : Line,
      l1 ∈ exDb.filter (pred_5_first noFilters) ∧ l2 ∈ exDb.filter (pred_7 noFilters) ∧
      l3 ∈ exDb.filter (pred_5_last noFilters) ∧
      l1.syllable_count = 5 ∧ l2.syllable_count = 7 ∧ l3.syllable_count = 5 ∧
      (generate_haiku exDb [] "issa" "irc.example.org" "#haiku" noFilters 0 0 0).1 =
        some { line1_id := l1.id, line2_id := l2.id, line3_id := l3.id
               full_text := l1.text ++ " / " ++ l2.text ++ " / " ++ l3.text
               triggered_by := "issa", server := "irc.example.org", channel := "#haiku" }) :=
  ⟨(generate_haiku_pools [] [] "issa" "irc.example.org" "#haiku" noFilters 0 0 0).1
      (Or.inl rfl),
   (generate_haiku_pools exDb [] "issa" "irc.example.org" "#haiku" noFilters 0 0 0).2
      (by decide) (by decide) (by decide)⟩

/-- Witness for C10: an empty pool leaves a non-empty store untouched,
and a successful generation appends exactly one record. -/
theorem generate_haiku_persistence_witness :
    generate_haiku [] [exHaiku] "issa" "irc.example.org" "#haiku" noFilters 0 0 0 =
      (none, [exHaiku]) ∧
    (∃ hk : GeneratedHaiku,
      generate_haiku exDb [] "issa" "irc.example.org" "#haiku" noFilters 0 0 0 =
        (some hk, [] ++ [hk])) :=
  ⟨(generate_haiku_persistence [] [exHaiku] "issa" "irc.example.org" "#haiku"
      noFilters 0 0 0).1 (Or.inl rfl),
   (generate_haiku_persistence exDb [] "issa" "irc.example.org" "#haiku"
      noFilters 0 0 0).2 (by decide) (by decide) (by decide)⟩

/-- Witness for C4 on the example pool, where the position-3 pool has two
lines. -/
theorem generate_haiku_distinct_witness : exHaiku.line1_id ≠ exHaiku.line3_id :=
  generate_haiku_distinct exDb [] "issa" "irc.example.org" "#haiku" noFilters 0 0 0
    (by decide) (by decide) exHaiku [exHaiku] (by decide)

/-! ## Claim C7: the word validity gate -/

theorem invalid_fold (o : Oracles) (l : List String) (acc : List String) :
    l.foldl (fun a w => if w = "" then a else if w.length ≤ 2 then a
        else if is_valid_english_word o w then a else a ++ [w]) acc
      = acc ++ l.filter (fun w => 2 < w.length && !is_valid_english_word o w) := by
  induction l generalizing acc with
  | nil => simp
  | cons w ws ih =>
    rw [List.foldl_cons, ih, List.filter_cons]
    by_cases h0 : w = ""
    · subst h0
      simp
    · by_cases h1 : w.length ≤ 2
      · rw [if_neg h0, if_pos h1]
        have hq : (2 < w.length && !is_valid_english_word o w) = false := by
          have : ¬(2 < w.length) := by omega
          simp [this]
        rw [hq]
        simp
      · by_cases h2 : is_valid_english_word o w = true
        · rw [if_neg h0, if_neg h1, if_pos h2]
          have hq : (2 < w.length && !is_valid_english_word o w) = false := by
            simp [h2]
          rw [hq]
          simp
        · rw [if_neg h0, if_neg h1, if_neg h2]
          have hq : (2 < w.length && !is_valid_english_word o w) = true := by
            simp [h2]
            omega
          rw [hq]
          simp

/-- Claim C7: `is_valid_english_word` accepts exactly pure digit strings,
acronym-store hits and phonetic-dictionary hits (for stores with no entry
for the empty word), and `validate_line_for_auto_collection` exempts
tokens of length at most 2, requires every other token to pass the gate,
and reports the failing tokens joined as the reason. -/
theorem validity_gate (o : Oracles) (hacro : o.acro "" = 0) (hcmu : o.cmu "" = false) :
    (∀ w : String, is_valid_english_word o w =
        ((!(w == "") && w.data.all Char.isDigit) || decide (0 < o.acro (pyLower w)) ||
          o.cmu (pyLower w))) ∧
    (∀ text : String, stripChars text.data ≠ [] →
      validate_line_for_auto_collection o text =
        (if ((splitSeps (cleanChars text.data)).map String.mk).filter
            (fun w => 2 < w.length && !is_valid_english_word o w) = []
         then (true, none)
         else (false, some ("Invalid words: " ++ String.intercalate ", "
           (((splitSeps (cleanChars text.data)).map String.mk).filter
             (fun w => 2 < w.length && !is_valid_english_word o w)))))) := by
  constructor
  · intro w
    by_cases hw : w = ""
    · subst hw
      have hpy : pyLower "" = "" := rfl
      rw [is_valid_english_word, if_pos rfl, hpy, hacro, hcmu]
      decide
    · rw [is_valid_english_word, if_neg hw]
      have hne : (!(w == "")) = true := by simp [hw]
      rw [hne, Bool.true_and]
      by_cases hd : w.data.all Char.isDigit = true
      · rw [if_pos hd, hd]
        simp
      · rw [if_neg hd]
        rw [Bool.eq_false_iff.mpr hd]  -- replace the all-digit test by false
        simp only [Bool.false_or]
        rw [check_acronym, pyLower_pyLower]
        by_cases ha : 0 < o.acro (pyLower w)
        · rw [if_pos ha]
          simp [ha]
        · rw [if_neg ha]
          simp only [decide_eq_false ha, Bool.false_or]
          by_cases hc : o.cmu (pyLower w) = true
          · rw [if_pos hc, hc]
          · rw [if_neg hc, Bool.eq_false_iff.mpr hc]
  · intro text htext
    simp only [validate_line_for_auto_collection, if_neg htext]
    rw [invalid_fold]
    simp only [List.nil_append]

/-- Witness for C7 with the `oC7` stores: "kvm" fails the gate and is the
reported reason. -/
theorem validity_gate_witness :
    is_valid_english_word oC7 "kvm" = false ∧
      validate_line_for_auto_collection oC7 "hello kvm" =
        (false, some "Invalid words: kvm") := by
  have h := validity_gate oC7 (by decide) (by decide)
  constructor
  · rw [h.1 "kvm"]
    decide
  · rw [h.2 "hello kvm" (by decide)]
    decide

/-! ## Claim C6: transition facts -/

theorem hasTransition_cons2 (c1 c2 : Char) (rest : List Char) :
    hasTransition (c1 :: c2 :: rest) =
      ((c1.isLower && c2.isUpper) || (c1.isUpper && c2.isUpper && headIsLower rest)
        || hasTransition (c2 :: rest)) := rfl

theorem hasTransition_cons_of {x : Char} {l : List Char} (h : hasTransition l = true) :
    hasTransition (x :: l) = true := by
  match l with
  | [] => simp [hasTransition] at h
  | [a] => simp [hasTransition] at h
  | a :: b :: t =>
    rw [hasTransition_cons2, h]
    simp

theorem hasTransition_all_lower {l : List Char} (h : ∀ c ∈ l, c.isLower = true) :
    hasTransition l = false := by
  induction l with
  | nil => rfl
  | cons a t ih =>
    match t with
    | [] => rfl
    | b :: t2 =>
      rw [hasTransition_cons2]
      rw [isLower_not_isUpper (h b (by simp)), isLower_not_isUpper (h a (by simp))]
      rw [ih (fun c hc => h c (List.mem_cons_of_mem a hc))]
      simp

theorem hasTransition_all_upper {l : List Char} (h : ∀ c ∈ l, c.isUpper = true) :
    hasTransition l = false := by
  induction l with
  | nil => rfl
  | cons a t ih =>
    match t with
    | [] => rfl
    | b :: t2 =>
      rw [hasTransition_cons2]
      rw [isUpper_not_isLower (h a (by simp))]
      have hhead : headIsLower t2 = false := by
        match t2 with
        | [] => rfl
        | c :: t3 => exact isUpper_not_isLower (h c (by simp))
      rw [hhead, ih (fun c hc => h c (List.mem_cons_of_mem a hc))]
      simp

theorem hasTransition_upper_lowers {c : Char} {cs : List Char} (hc : c.isUpper = true)
    (h : ∀ x ∈ cs, x.isLower = true) : hasTransition (c :: cs) = false := by
  match cs with
  | [] => rfl
  | b :: t2 =>
    rw [hasTransition_cons2]
    rw [isUpper_not_isLower hc, isLower_not_isUpper (h b (by simp))]
    rw [hasTransition_all_lower h]
    simp

theorem hasTransition_junction1 (a b : Char) (t : List Char)
    (ha : a.isLower = true) (hb : b.isUpper = true) :
    hasTransition (a :: b :: t) = true := by
  rw [hasTransition_cons2, ha, hb]
  simp

theorem hasTransition_junction2 (a b c : Char) (t : List Char)
    (ha : a.isUpper = true) (hb : b.isUpper = true) (hc : c.isLower = true) :
    hasTransition (a :: b :: c :: t) = true := by
  rw [hasTransition_cons2, ha, hb]
  have : headIsLower (c :: t) = true := hc
  rw [this]
  simp

theorem hasTransition_append1 (xs : List Char) {a b : Char} (ys : List Char)
    (ha : a.isLower = true) (hb : b.isUpper = true) :
    hasTransition (xs ++ a :: b :: ys) = true := by
  induction xs with
  | nil => exact hasTransition_junction1 a b ys ha hb
  | cons x xs ih =>
    rw [List.cons_append]
    exact hasTransition_cons_of ih

theorem hasTransition_append2 (xs : List Char) {a b c : Char} (ys : List Char)
    (ha : a.isUpper = true) (hb : b.isUpper = true) (hc : c.isLower = true) :
    hasTransition (xs ++ a :: b :: c :: ys) = true := by
  induction xs with
  | nil => exact hasTransition_junction2 a b c ys ha hb hc
  | cons x xs ih =>
    rw [List.cons_append]
    exact hasTransition_cons_of ih

theorem getLast_prop {p : Char → Bool} {l : List Char} (hne : l ≠ [])
    (h : ∀ c ∈ l, p c = true) : ∃ a, l.getLast? = some a ∧ p a = true :=
  ⟨l.getLast hne, List.getLast?_eq_getLast l hne, h _ (List.getLast_mem hne)⟩

/-! ## Claim C6: scanner evaluation -/

theorem lookaheadOk_lower {e : Char} (es : List Char) (he : e.isLower = true) :
    lookaheadOk (e :: es) = false := by
  have hw : isWordChar e = true := isAlpha_isWordChar (by rw [Char.isAlpha, he]; simp)
  match es with
  | [] => simp [lookaheadOk, hw]
  | x :: xs => simp [lookaheadOk, hw, isLower_not_isUpper he]

theorem alt2Shrink_step {t : List Char} {rL e : Char} {es : List Char}
    (ht : t ≠ []) (hrL : rL.isUpper = true) (he : e.isLower = true) :
    alt2Shrink ((t ++ [rL]).reverse) (e :: es) = some (t, rL :: e :: es) := by
  have hrev : (t ++ [rL]).reverse = rL :: t.reverse := by
    simp
  rw [hrev, alt2Shrink, lookaheadOk_lower es he]
  simp only [Bool.false_eq_true, if_false]
  match ht2 : t.reverse with
  | [] => exact absurd (by simpa using ht2) ht
  | x :: xs =>
    rw [alt2Shrink]
    have hla : lookaheadOk (rL :: e :: es) = true := by
      simp [lookaheadOk, hrL, he]
    rw [hla]
    simp only [if_true]
    rw [← ht2, List.reverse_reverse]

theorem matchAt_upper_lower {c d : Char} (cs : List Char) (hc : c.isUpper = true)
    (hd : d.isLower = true) :
    matchAt (c :: d :: cs) =
      some (c :: (d :: cs).takeWhile Char.isLower, (d :: cs).dropWhile Char.isLower) := by
  simp [matchAt, matchAlt1, isUpper_not_isLower hc, hc, List.takeWhile_cons,
    List.dropWhile_cons, hd]

theorem matchAt_upper_alt2 {c : Char} {cs : List Char} (hc : c.isUpper = true)
    (hlow : cs.takeWhile Char.isLower = []) :
    matchAt (c :: cs) = alt2Shrink ((c :: cs.takeWhile Char.isUpper).reverse)
      (cs.dropWhile Char.isUpper) := by
  simp [matchAt, matchAlt1, isUpper_not_isLower hc, hc, hlow]

theorem reFindAllAux_cons_match {fuel : Nat} {c : Char} {cs m rest : List Char}
    (h : matchAt (c :: cs) = some (m, rest)) :
    reFindAllAux (fuel + 1) (c :: cs) = m :: reFindAllAux fuel rest := by
  rw [reFindAllAux, h]

theorem alt2Shrink_nil_rest {run : List Char} (h : run ≠ []) :
    alt2Shrink run.reverse [] = some (run, []) := by
  match hr : run.reverse with
  | [] => exact absurd (by simpa using hr) h
  | x :: xs =>
    rw [alt2Shrink]
    have hla : lookaheadOk [] = true := rfl
    rw [hla]
    simp only [if_true]
    rw [← hr, List.reverse_reverse]

theorem dropWhile_head_false {p : Char → Bool} {l : List Char} {x : Char} {xs : List Char}
    (h : l.dropWhile p = x :: xs) : p x = false := by
  have := List.head?_dropWhile_not p l
  rw [h] at this
  simpa using this

theorem mem_of_mem_takeWhile {p : Char → Bool} {l : List Char} {a : Char}
    (h : a ∈ l.takeWhile p) : a ∈ l :=
  (List.takeWhile_sublist p).subset h

theorem mem_of_mem_dropWhile {p : Char → Bool} {l : List Char} {a : Char}
    (h : a ∈ l.dropWhile p) : a ∈ l :=
  (List.dropWhile_sublist p).subset h

/-! ## Claim C6: the decomposition invariant -/

theorem scanInv_head {dw : List Char} {ps : List (List Char)} (h : scanInv dw ps)
    {d : Char} {ds : List Char} (hdw : dw = d :: ds) :
    ∃ t2 rest2, ps = (d :: t2) :: rest2 := by
  obtain ⟨hflat, hne, hparts, _, _⟩ := h
  match ps, hne with
  | p :: rest2, _ =>
    have hpne := (hparts p (List.mem_cons_self p rest2)).1
    match p, hpne with
    | x :: t2, _ =>
      refine ⟨t2, rest2, ?_⟩
      have h2 : x :: (t2 ++ rest2.flatten) = d :: ds := by
        rw [← hdw, ← hflat]
        simp
      injection h2 with hx _
      rw [hx]

theorem scanInv_step {fuel : Nat} {m dw : List Char}
    (hmne : m ≠ [])
    (hmnotrans : hasTransition m = false)
    (hmlast : ∃ a, m.getLast? = some a ∧ a.isLower = true)
    (hdwnil : dw = [] → hasTransition (m ++ dw) = false)
    (hdwup : ∀ d ds, dw = d :: ds → d.isUpper = true)
    (ihdw : dw ≠ [] → scanInv dw (reFindAllAux fuel dw)) :
    scanInv (m ++ dw) (m :: reFindAllAux fuel dw) := by
  match hdw : dw with
  | [] =>
    rw [reFindAllAux_nil]
    refine ⟨by simp, by simp, ?_, by simp [chainOk], ?_⟩
    · intro p hp
      rw [List.mem_singleton] at hp
      subst hp
      exact ⟨hmne, hmnotrans⟩
    · constructor
      · intro hlen
        simp at hlen
      · intro htr
        rw [hdwnil rfl] at htr
        cases htr
  | d :: ds =>
    have hd := hdwup d ds rfl
    have hinv := ihdw (by simp)
    obtain ⟨t2, rest2, hps⟩ := scanInv_head hinv rfl
    obtain ⟨hflat, hne, hparts, hchain, hiff⟩ := hinv
    obtain ⟨a, hal, halow⟩ := hmlast
    obtain ⟨m0, hm0⟩ := List.getLast?_eq_some_iff.mp hal
    refine ⟨?_, by simp, ?_, ?_, ?_⟩
    · rw [List.flatten_cons, hflat]
    · intro p hp
      rcases List.mem_cons.mp hp with hp | hp
      · subst hp
        exact ⟨hmne, hmnotrans⟩
      · exact hparts p hp
    · rw [hps]
      rw [hps] at hchain
      show (okBoundary m (d :: t2) && chainOk ((d :: t2) :: rest2)) = true
      rw [hchain]
      have hbound : okBoundary m (d :: t2) = true := by
        rw [okBoundary, hal]
        match t2 with
        | [] => exact hasTransition_junction1 a d _ halow hd
        | y :: t3 => exact hasTransition_junction1 a d _ halow hd
      rw [hbound]
      rfl
    · have htrue : hasTransition (m ++ d :: ds) = true := by
        rw [hm0, List.append_assoc]
        exact hasTransition_append1 m0 ds halow hd
      constructor
      · intro _
        exact htrue
      · intro _
        have hlen := List.length_pos_of_ne_nil hne
        simp
        omega

theorem chainOk_cons2 (p1 p2 : List Char) (rest : List (List Char)) :
    chainOk (p1 :: p2 :: rest) = (okBoundary p1 p2 && chainOk (p2 :: rest)) := rfl

/-- On all-letter input the scanner produces exactly the decomposition of
the token at its case-transition boundaries. -/
theorem reFindAllAux_alpha : ∀ (fuel : Nat) (l : List Char), l.length ≤ fuel →
    (∀ c ∈ l, c.isAlpha = true) → l ≠ [] → scanInv l (reFindAllAux fuel l) := by
  intro fuel
  induction fuel with
  | zero =>
    intro l hl hA hne
    match l, hne with
    | c :: cs, _ => simp at hl
  | succ fuel ih =>
    intro l hl hA hne
    match l, hne with
    | c :: cs, _ =>
      have hlcs : cs.length ≤ fuel := by
        simp at hl
        omega
      rcases isAlpha_lower_or_upper (hA c (List.mem_cons_self c cs)) with hc | hc
      · -- Case A: leading lowercase letter, first alternative fires.
        have hm := matchAt_lower cs hc
        rw [reFindAllAux_cons_match hm]
        have hmlow : ∀ x ∈ c :: cs.takeWhile Char.isLower, x.isLower = true := by
          intro x hx
          rcases List.mem_cons.mp hx with hx | hx
          · subst hx
            exact hc
          · exact List.mem_takeWhile_imp hx
        have hsplit : c :: cs =
            (c :: cs.takeWhile Char.isLower) ++ cs.dropWhile Char.isLower := by
          rw [List.cons_append, List.takeWhile_append_dropWhile]
        rw [hsplit]
        apply scanInv_step
        · simp
        · exact hasTransition_all_lower hmlow
        · exact getLast_prop (by simp) hmlow
        · intro hnil
          rw [hnil, List.append_nil]
          exact hasTransition_all_lower hmlow
        · intro d ds hdw
          have hdlow := dropWhile_head_false hdw
          have hdmem : d ∈ cs := mem_of_mem_dropWhile (hdw ▸ List.mem_cons_self d ds)
          rcases isAlpha_lower_or_upper (hA d (List.mem_cons_of_mem c hdmem)) with h' | h'
          · rw [h'] at hdlow
            cases hdlow
          · exact h'
        · intro hdne
          apply ih
          · have hle : (cs.dropWhile Char.isLower).length ≤ cs.length := by
              conv_rhs => rw [← List.takeWhile_append_dropWhile Char.isLower cs]
              rw [List.length_append]
              omega
            omega
          · intro x hx
            exact hA x (List.mem_cons_of_mem c (mem_of_mem_dropWhile hx))
          · exact hdne
      · by_cases hlow : cs.takeWhile Char.isLower = []
        · -- Cases C/D: uppercase run, second alternative.
          have hmatch := matchAt_upper_alt2 hc hlow
          rcases hrest : cs.dropWhile Char.isUpper with _ | ⟨e, es⟩
          · -- The uppercase run reaches the end of the token.
            have hallup : ∀ x ∈ cs, x.isUpper = true := List.dropWhile_eq_nil_iff.mp hrest
            have htwU : cs.takeWhile Char.isUpper = cs :=
              List.takeWhile_eq_self_iff.mpr hallup
            have hm : matchAt (c :: cs) = some (c :: cs, []) := by
              rw [hmatch, hrest, htwU]
              exact alt2Shrink_nil_rest (by simp)
            rw [reFindAllAux_cons_match hm, reFindAllAux_nil]
            have hup : ∀ x ∈ c :: cs, x.isUpper = true := by
              intro x hx
              rcases List.mem_cons.mp hx with hx | hx
              · subst hx
                exact hc
              · exact hallup x hx
            refine ⟨by simp, by simp, ?_, by simp [chainOk], ?_⟩
            · intro p hp
              rw [List.mem_singleton] at hp
              subst hp
              exact ⟨by simp, hasTransition_all_upper hup⟩
            · constructor
              · intro hlen
                simp at hlen
              · intro htr
                rw [hasTransition_all_upper hup] at htr
                cases htr
          · -- The uppercase run is followed by a lowercase letter:
            -- backtracking leaves the last uppercase letter to the next token.
            have helow : e.isLower = true := by
              have hef := dropWhile_head_false hrest
              have hemem : e ∈ cs := mem_of_mem_dropWhile (hrest ▸ List.mem_cons_self e es)
              rcases isAlpha_lower_or_upper (hA e (List.mem_cons_of_mem c hemem)) with h' | h'
              · exact h'
              · rw [h'] at hef
                cases hef
            have htwU : cs.takeWhile Char.isUpper ≠ [] := by
              intro hempty
              have happ := List.takeWhile_append_dropWhile Char.isUpper cs
              rw [hempty, List.nil_append, hrest] at happ
              rw [← happ, List.takeWhile_cons, helow] at hlow
              simp at hlow
            rcases List.eq_nil_or_concat (c :: cs.takeWhile Char.isUpper) with hnil | ⟨t, rL, hrun⟩
            · simp at hnil
            · rw [List.concat_eq_append] at hrun
              have hrLup : rL.isUpper = true := by
                have hmem : rL ∈ c :: cs.takeWhile Char.isUpper := by
                  rw [hrun]
                  simp
                rcases List.mem_cons.mp hmem with h' | h'
                · subst h'
                  exact hc
                · exact List.mem_takeWhile_imp h'
              have htne : t ≠ [] := by
                intro ht0
                rw [ht0, List.nil_append] at hrun
                injection hrun with _ h2
                exact htwU h2
              have htup : ∀ x ∈ t, x.isUpper = true := by
                intro x hx
                have hmem : x ∈ c :: cs.takeWhile Char.isUpper := by
                  rw [hrun]
                  exact List.mem_append.mpr (Or.inl hx)
                rcases List.mem_cons.mp hmem with h' | h'
                · subst h'
                  exact hc
                · exact List.mem_takeWhile_imp h'
              have hm : matchAt (c :: cs) = some (t, rL :: e :: es) := by
                rw [hmatch, hrest, hrun]
                exact alt2Shrink_step htne hrLup helow
              rw [reFindAllAux_cons_match hm]
              have hsplit : c :: cs = t ++ (rL :: e :: es) := by
                have h0 : c :: cs =
                    (c :: cs.takeWhile Char.isUpper) ++ cs.dropWhile Char.isUpper := by
                  rw [List.cons_append, List.takeWhile_append_dropWhile]
                rw [h0, hrun, hrest, List.append_assoc]
                rfl
              have hrlen : (rL :: e :: es).length ≤ fuel := by
                have hlensum := congrArg List.length hsplit
                rw [List.length_append] at hlensum
                have htpos := List.length_pos_of_ne_nil htne
                simp at hlensum ⊢
                omega
              have hrA : ∀ x ∈ rL :: e :: es, x.isAlpha = true := by
                intro x hx
                apply hA
                rw [hsplit]
                exact List.mem_append.mpr (Or.inr hx)
              have hinv := ih (rL :: e :: es) hrlen hrA (by simp)
              match fuel, hrlen, hinv, ih with
              | f2 + 1, hrlen, hinv, ih =>
                have hm2 := matchAt_upper_lower (c := rL) (d := e) es hrLup helow
                have hstep2 := @reFindAllAux_cons_match f2 rL (e :: es) _ _ hm2
                rw [hsplit]
                obtain ⟨hflat, hne2, hparts, hchain, _⟩ := hinv
                refine ⟨?_, by simp, ?_, ?_, ?_⟩
                · rw [List.flatten_cons, hflat]
                · intro p hp
                  rcases List.mem_cons.mp hp with hp | hp
                  · subst hp
                    exact ⟨htne, hasTransition_all_upper htup⟩
                  · exact hparts p hp
                · rw [hstep2, chainOk_cons2]
                  rw [hstep2] at hchain
                  rw [hchain]
                  have hbound :
                      okBoundary t (rL :: (e :: es).takeWhile Char.isLower) = true := by
                    obtain ⟨aU, haU, haUup⟩ := getLast_prop htne htup
                    rw [okBoundary, haU]
                    rw [List.takeWhile_cons, helow]
                    simp only [if_true]
                    exact hasTransition_junction2 aU rL e _ haUup hrLup helow
                  rw [hbound]
                  rfl
                · have htrans : hasTransition (t ++ rL :: e :: es) = true := by
                    rcases List.eq_nil_or_concat t with h0 | ⟨t0, aU, ht0⟩
                    · exact absurd h0 htne
                    · rw [List.concat_eq_append] at ht0
                      have haUup : aU.isUpper = true := htup aU (by rw [ht0]; simp)
                      rw [ht0, List.append_assoc]
                      exact hasTransition_append2 t0 es haUup hrLup helow
                  constructor
                  · intro _
                    exact htrans
                  · intro _
                    rw [hstep2]
                    simp
        · -- Case B: uppercase letter followed by a lowercase run.
          match cs, hlow, hlcs with
          | d :: ds, hlow, hlcs =>
            have hd : d.isLower = true := by
              by_contra hd0
              have hdf : d.isLower = false := Bool.eq_false_iff.mpr hd0
              have : (d :: ds).takeWhile Char.isLower = [] := by
                rw [List.takeWhile_cons, hdf]
                simp
              exact hlow this
            have hm := matchAt_upper_lower (c := c) (d := d) ds hc hd
            rw [reFindAllAux_cons_match hm]
            have htw : (d :: ds).takeWhile Char.isLower = d :: ds.takeWhile Char.isLower := by
              rw [List.takeWhile_cons, hd]
              simp
            have hdtw : ∀ x ∈ d :: ds.takeWhile Char.isLower, x.isLower = true := by
              intro x hx
              rcases List.mem_cons.mp hx with hx | hx
              · subst hx
                exact hd
              · exact List.mem_takeWhile_imp hx
            have hmlow : ∀ x ∈ (d :: ds).takeWhile Char.isLower, x.isLower = true := by
              rw [htw]
              exact hdtw
            have hsplit : c :: d :: ds =
                (c :: (d :: ds).takeWhile Char.isLower) ++ (d :: ds).dropWhile Char.isLower := by
              rw [List.cons_append, List.takeWhile_append_dropWhile]
            rw [hsplit]
            apply scanInv_step
            · simp
            · exact hasTransition_upper_lowers hc hmlow
            · obtain ⟨a, ha, halow⟩ :=
                getLast_prop (l := d :: ds.takeWhile Char.isLower) (by simp) hdtw
              refine ⟨a, ?_, halow⟩
              rw [htw, List.getLast?_cons_cons]
              exact ha
            · intro hnil
              rw [hnil, List.append_nil]
              exact hasTransition_upper_lowers hc hmlow
            · intro d2 ds2 hdw
              have hdlow := dropWhile_head_false hdw
              have hdmem : d2 ∈ d :: ds :=
                mem_of_mem_dropWhile (hdw ▸ List.mem_cons_self d2 ds2)
              rcases isAlpha_lower_or_upper
                  (hA d2 (List.mem_cons_of_mem c hdmem)) with h' | h'
              · rw [h'] at hdlow
                cases hdlow
              · exact h'
            · intro hdne
              apply ih
              · have hle : ((d :: ds).dropWhile Char.isLower).length ≤ (d :: ds).length := by
                  conv_rhs => rw [← List.takeWhile_append_dropWhile Char.isLower (d :: ds)]
                  rw [List.length_append]
                  omega
                omega
              · intro x hx
                exact hA x (List.mem_cons_of_mem c (mem_of_mem_dropWhile hx))
              · exact hdne

theorem reFindAll_alpha {l : List Char} (hA : ∀ c ∈ l, c.isAlpha = true) (hne : l ≠ []) :
    scanInv l (reFindAll l) :=
  reFindAllAux_alpha l.length l (Nat.le_refl _) hA hne

theorem string_foldl_append (acc : List Char) (ps : List (List Char)) :
    List.foldl (· ++ ·) (String.mk acc) (ps.map String.mk) =
      String.mk (acc ++ ps.flatten) := by
  induction ps generalizing acc with
  | nil => simp
  | cons a t ih =>
    rw [List.map_cons, List.foldl_cons]
    have h1 : String.mk acc ++ String.mk a = String.mk (acc ++ a) := rfl
    rw [h1, ih, List.flatten_cons, List.append_assoc]

theorem string_join_mk (ps : List (List Char)) :
    String.join (ps.map String.mk) = String.mk ps.flatten := by
  have h := string_foldl_append [] ps
  simpa [String.join] using h

theorem map_mk_data (ps : List (List Char)) :
    (ps.map String.mk).map String.data = ps := by
  induction ps with
  | nil => rfl
  | cons a t ih => rw [List.map_cons, List.map_cons, ih]

theorem foldl_add_map (f : String → Nat) (l : List String) (n : Nat) :
    l.foldl (fun t p => t + f p) n = n + (l.map f).sum := by
  induction l generalizing n with
  | nil => simp
  | cons a t ih =>
    rw [List.foldl_cons, ih, List.map_cons, List.sum_cons]
    omega

/-! ## Claim C6: the CamelCase splitter -/

/-- Counterexample to C6 as stated: the token "aB1" contains an internal
case transition (lowercase a followed directly by uppercase B) but
`_split_camelcase` keeps it whole — the digit prevents the regex matches
from covering the token, so the rejoin check fails. -/
theorem camelcase_counterexample :
    hasTransition "aB1".data = true ∧ split_camelcase "aB1" = ["aB1"] := by
  decide

/-- Claim C6 (amended): restricted to tokens consisting solely of
letters, the CamelCase splitter splits every token containing an
internal case transition into sub-tokens exactly at the transition
boundaries — the sub-tokens are non-empty, concatenate back to the
token, none contains a transition, and adjacent sub-tokens meet at a
boundary — and keeps every token with no transition whole.  A token
containing non-letter characters (such as "aB1") may be kept whole even
though it contains a transition.  For every word not resolved as an
acronym, the word's total syllable count is the sum of its sub-tokens'
counts. -/
theorem camelcase_split (o : Oracles) (w : String)
    (hA : ∀ c ∈ w.data, c.isAlpha = true) :
    (hasTransition w.data = false → split_camelcase w = [w]) ∧
    (hasTransition w.data = true →
      1 < (split_camelcase w).length ∧
      ((split_camelcase w).map String.data).flatten = w.data ∧
      (∀ p ∈ split_camelcase w, p.data ≠ [] ∧ hasTransition p.data = false) ∧
      chainOk ((split_camelcase w).map String.data) = true) ∧
    (check_acronym o.acro w = 0 →
      wordCount o w = ((split_camelcase w).map (partCount o)).sum) := by
  have hsum : check_acronym o.acro w = 0 →
      wordCount o w = ((split_camelcase w).map (partCount o)).sum := by
    intro ha
    rw [wordCount, ha]
    simp only [gt_iff_lt, Nat.lt_irrefl, if_false]
    rw [foldl_add_map (partCount o) (split_camelcase w) 0, Nat.zero_add]
  by_cases hne : w.data = []
  · have hw : w = "" := by
      cases w with
      | mk d =>
        simp only [String.data] at hne
        rw [hne]
    subst hw
    refine ⟨fun _ => by decide, fun htr => ?_, hsum⟩
    cases htr
  · have hinv := reFindAll_alpha hA hne
    obtain ⟨hflat, hne2, hparts, hchain, hiff⟩ := hinv
    have hjoin : String.join ((reFindAll w.data).map String.mk) = w := by
      rw [string_join_mk, hflat, string_mk_data]
    have hemp : ((reFindAll w.data).map String.mk).isEmpty = false := by
      match reFindAll w.data, hne2 with
      | p :: rest, _ => rfl
    refine ⟨?_, ?_, hsum⟩
    · intro htr
      have hlen : ¬(1 < (reFindAll w.data).length) := fun h => by
        rw [hiff.mp h] at htr
        cases htr
      rw [split_camelcase, hemp]
      simp only [Bool.false_eq_true, if_false]
      rw [if_neg]
      intro ⟨_, hl⟩
      rw [List.length_map] at hl
      exact hlen hl
    · intro htr
      have hlen : 1 < (reFindAll w.data).length := hiff.mpr htr
      have heq : split_camelcase w = (reFindAll w.data).map String.mk := by
        rw [split_camelcase, hemp]
        simp only [Bool.false_eq_true, if_false]
        rw [if_pos ⟨by rw [hjoin], by rw [List.length_map]; exact hlen⟩]
      rw [heq, map_mk_data]
      refine ⟨by rw [List.length_map]; exact hlen, hflat, ?_, hchain⟩
      intro p hp
      obtain ⟨q, hq, hpq⟩ := List.mem_map.mp hp
      have hprops := hparts q hq
      rw [← hpq]
      exact hprops

/-- Witness for C6 (amended): "EvilB" splits into more than one
sub-token, its total is the sum over the sub-tokens, and "hello" (no
transition) is kept whole. -/
theorem camelcase_split_witness :
    1 < (split_camelcase "EvilB").length ∧
      wordCount oZero "EvilB" = ((split_camelcase "EvilB").map (partCount oZero)).sum ∧
      split_camelcase "hello" = ["hello"] :=
  ⟨((camelcase_split oZero "EvilB" (by decide)).2.1 (by decide)).1,
   (camelcase_split oZero "EvilB" (by decide)).2.2 (by decide),
   (camelcase_split oZero "hello" (by decide)).1 (by decide)⟩

end HaikuBot
